import Mathlib

/-!
Shallow embedding of the paper-graph aggregation engine of `create.py`
(repository `galagain/lasius-creator`).

The embedding models:
* the retrying HTTP fetcher `make_api_call`,
* the JSON query cache (`load_saved_queries` / `save_query` /
  `is_cache_valid` / `get_saved_query`),
* the cached search wrapper `search_semantic_scholar`,
* the paginated fetcher `fetch_papers`,
* the graph aggregator `generate_json`.

Modelling conventions:
* Machine effects are made explicit.  HTTP responses come from an oracle
  (`Nat → Http` per page, indexed by attempt number; `Nat → Nat → Http`
  per query, indexed by offset and attempt).  The current wall-clock time
  is an `Int` parameter (`datetime.now()`), measured in days so that the
  cache-age comparison against `CACHE_MAX_AGE_DAYS` is direct.
* Every function that sleeps, logs or performs a GET returns a `Trace`
  recording the number of GET requests issued, the list of sleep
  durations (seconds, in order) and the list of progress messages.
  Progress messages are modelled by the abstract constructors of `Log`
  rather than formatted strings.
* Python dict assignment `d[k] = v` keeps the insertion position of an
  existing key and appends a new key at the end; `dictInsert` mirrors
  this.  `defaultdict(list)` with `d[k].append(v)` is mirrored by
  `mdictAppend`; reading `d[k]` during the `not in` membership test
  creates an empty list, but such a key is always appended to right
  after, so an append-only model is observationally equal.
* Python truthiness of a JSON object (`if data:`, `if response:`,
  `if saved_result:`, `if not api_key:`) is modelled by an explicit
  `truthy` flag on `ApiResult` (the code only ever observes a result's
  `data` field and its truthiness) and by `keyMissing` for the API key.
* The `while` loop of `fetch_papers` is written with a fuel parameter;
  `fetch_papers` passes `total_papers + 1` fuel, which bounds the number
  of iterations because every non-final iteration strictly grows the
  accumulator while its length is below `total_papers`.  The fuel-0
  result coincides with the loop-exit result.
-/

/-- An author object `{authorId, name}` from the raw API payload. -/
structure Author where
  authorId : String
  name : String
deriving Repr, DecidableEq

/-- A reference or citation object embedded in a paper payload
(same shape as a paper, one level deep only: no nested
references/citations). -/
structure RefPaper where
  paperId : String
  title : String
  url : String
  citationCount : Int
  publicationDate : Option String
  authors : List Author
deriving Repr, DecidableEq

/-- A top-level paper object from the raw API payload. -/
structure RawPaper where
  paperId : String
  title : String
  url : String
  citationCount : Int
  publicationDate : Option String
  authors : List Author
  references : List RefPaper
  citations : List RefPaper
deriving Repr, DecidableEq

/-- A raw API search result.  The code only observes the `data` list
(`data.get("data", [])`) and the Python truthiness of the result object,
so the result is modelled by exactly these two projections. -/
structure ApiResult where
  data : List RawPaper
  truthy : Bool
deriving Repr, DecidableEq

/-- One entry of the `queries.json` cache file:
`{query, limit, offset, result, date_saved}`. -/
structure CacheEntry where
  query : String
  limit : Nat
  offset : Nat
  result : ApiResult
  dateSaved : Int
deriving Repr, DecidableEq

/-- Progress messages (`log_message` calls), abstracted from their
formatted text. -/
inductive Log where
  | cacheExpired (query : String) (limit offset : Nat)
  | attemptError (attempt maxRetries status : Nat)
  | retriesExhausted (maxRetries : Nat)
  | usingCached (query : String) (limit offset : Nat)
  | fetchedPage (title : String) (pageSize totalSoFar requestCount : Nat)
  | totalRequests (title : String) (requestCount : Nat)
  | processingQuery (title query : String) (idx numQueries : Nat)
  | totalUnique (title : String) (numPapers : Nat)
  | apiKeyMissing
deriving Repr, DecidableEq

/-- Observable effects: number of live GET requests, sleep durations in
seconds (in order), and emitted progress messages (in order). -/
structure Trace where
  requests : Nat
  sleeps : List Nat
  logs : List Log
deriving Repr, DecidableEq

/-- The empty trace. -/
def Trace.empty : Trace := ⟨0, [], []⟩

/-- Sequential composition of traces. -/
def Trace.app (t u : Trace) : Trace :=
  ⟨t.requests + u.requests, t.sleeps ++ u.sleeps, t.logs ++ u.logs⟩

/-- An HTTP response as observed by `make_api_call`: a status code and,
for status 200, the parsed JSON body. -/
structure Http where
  status : Nat
  body : ApiResult
deriving Repr, DecidableEq

/-- `CACHE_MAX_AGE_DAYS = 7`: maximum age of cached queries (days). -/
def CACHE_MAX_AGE_DAYS : Int := 7

/-- `is_cache_valid(entry)`: the entry is valid while
`datetime.now() - date_saved < timedelta(days=CACHE_MAX_AGE_DAYS)`.
Timestamps are modelled in days. -/
def is_cache_valid (now : Int) (entry : CacheEntry) : Bool :=
  decide (now - entry.dateSaved < CACHE_MAX_AGE_DAYS)

/-- `save_query(query, limit, offset, result)`: append a new cache entry
stamped with the current time (the file is rewritten with the appended
list). -/
def save_query (cache : List CacheEntry) (now : Int) (query : String)
    (limit offset : Nat) (result : ApiResult) : List CacheEntry :=
  cache ++ [⟨query, limit, offset, result, now⟩]

/-- The linear scan inside `get_saved_query`: first entry whose
`(query, limit, offset)` triple matches exactly; a valid match yields its
result, an expired match yields `none` plus a cache-expiry message. -/
def findSaved (cache : List CacheEntry) (now : Int) (query : String)
    (limit offset : Nat) : Option ApiResult × List Log :=
  match cache with
  | [] => (none, [])
  | e :: rest =>
    if e.query = query ∧ e.limit = limit ∧ e.offset = offset then
      if is_cache_valid now e then (some e.result, [])
      else (none, [Log.cacheExpired query limit offset])
    else findSaved rest now query limit offset

/-- `get_saved_query(query, limit, offset)`: scan the loaded cache; the
third component is the backing store after the call — the function only
reads the file, so the store is returned unchanged. -/
def get_saved_query (cache : List CacheEntry) (now : Int) (query : String)
    (limit offset : Nat) : Option ApiResult × List Log × List CacheEntry :=
  let s := findSaved cache now query limit offset
  (s.1, s.2, cache)

/-- The retry loop of `make_api_call`
(`for attempt in range(max_retries)`), structured over the number of
remaining attempts; `attempt` is the index of the current attempt.  Each
failed attempt logs an error message and sleeps 2 seconds; exhausting
the range logs the final failure message and returns `None`. -/
def apiCallGo (responses : Nat → Http) (maxRetries attempt : Nat) :
    Nat → Option ApiResult × Trace
  | 0 => (none, ⟨0, [], [Log.retriesExhausted maxRetries]⟩)
  | remaining + 1 =>
    let r := responses attempt
    if r.status = 200 then
      (some r.body, ⟨1, [], []⟩)
    else
      let rest := apiCallGo responses maxRetries (attempt + 1) remaining
      (rest.1,
       ⟨1 + rest.2.requests, 2 :: rest.2.sleeps,
        Log.attemptError (attempt + 1) maxRetries r.status :: rest.2.logs⟩)

/-- `make_api_call(url, headers, params, max_retries=3)`. -/
def make_api_call (responses : Nat → Http) (maxRetries : Nat) :
    Option ApiResult × Trace :=
  apiCallGo responses maxRetries 0 maxRetries

/-- Result of `search_semantic_scholar`: the returned result (or `None`),
the effects, and the cache file contents after the call. -/
structure SearchOut where
  result : Option ApiResult
  trace : Trace
  cache : List CacheEntry
deriving Repr, DecidableEq

/-- The live (non-cached) tail of `search_semantic_scholar`: call the
API with 3 retries; a truthy response is saved to the cache file and
returned, anything else yields `None` and leaves the cache alone. -/
def searchLive (cache : List CacheEntry) (now : Int) (net : Nat → Http)
    (query : String) (limit offset : Nat) (lookupLogs : List Log) : SearchOut :=
  let r := make_api_call net 3
  match r.1 with
  | some resp =>
    if resp.truthy then
      { result := some resp,
        trace := ⟨r.2.requests, r.2.sleeps, lookupLogs ++ r.2.logs⟩,
        cache := save_query cache now query limit offset resp }
    else
      { result := none,
        trace := ⟨r.2.requests, r.2.sleeps, lookupLogs ++ r.2.logs⟩,
        cache := cache }
  | none =>
    { result := none,
      trace := ⟨r.2.requests, r.2.sleeps, lookupLogs ++ r.2.logs⟩,
      cache := cache }

/-- `search_semantic_scholar(query, api_key, limit, offset, sid)`:
consult the cache first; a truthy cached result is returned with a
"using cached result" message and no network activity, otherwise fall
through to the live call. -/
def search_semantic_scholar (cache : List CacheEntry) (now : Int)
    (net : Nat → Http) (query : String) (limit offset : Nat) : SearchOut :=
  let saved := get_saved_query cache now query limit offset
  match saved.1 with
  | some r =>
    if r.truthy then
      { result := some r,
        trace := ⟨0, [], saved.2.1 ++ [Log.usingCached query limit offset]⟩,
        cache := cache }
    else searchLive cache now net query limit offset saved.2.1
  | none => searchLive cache now net query limit offset saved.2.1

/-- Result of `fetch_papers`: the papers, the final request count, the
effects, and the cache file contents after the call. -/
structure FetchOut where
  papers : List RawPaper
  requestCount : Nat
  trace : Trace
  cache : List CacheEntry
deriving Repr, DecidableEq

/-- The `while len(all_papers) < total_papers` loop of `fetch_papers`,
with explicit fuel.  Each iteration: call `search_semantic_scholar` for
the current offset, count the request; on a result with a non-empty
`data` list, extend the accumulator, advance the offset by the page
size, log the page and sleep 1 second; on `None` or an empty `data`
list, stop with what was accumulated.  The fuel-0 result equals the
loop-exit result. -/
def fetchLoop (now : Int) (net : Nat → Nat → Http) (query : String)
    (total : Nat) (title : String) : Nat → List CacheEntry →
    List RawPaper → Nat → Nat → FetchOut
  | 0, cache, acc, _, reqCount => ⟨acc, reqCount, Trace.empty, cache⟩
  | fuel + 1, cache, acc, offset, reqCount =>
    if acc.length < total then
      let s := search_semantic_scholar cache now (net offset) query 100 offset
      match s.result with
      | some d =>
        if d.data.isEmpty then
          ⟨acc, reqCount + 1, s.trace, s.cache⟩
        else
          let pageTrace : Trace :=
            Trace.app s.trace
              ⟨0, [1], [Log.fetchedPage title d.data.length
                          (acc.length + d.data.length) (reqCount + 1)]⟩
          let rest := fetchLoop now net query total title fuel s.cache
            (acc ++ d.data) (offset + 100) (reqCount + 1)
          ⟨rest.papers, rest.requestCount, Trace.app pageTrace rest.trace,
           rest.cache⟩
      | none => ⟨acc, reqCount + 1, s.trace, s.cache⟩
    else ⟨acc, reqCount, Trace.empty, cache⟩

/-- `fetch_papers(query, api_key, total_papers, title, room)`: run the
page loop from an empty accumulator at offset 0, log the total request
count, and truncate the result to `total_papers`.  Fuel `total + 1`
suffices: every iteration that recurses strictly grows the accumulator
while its length is below `total`. -/
def fetch_papers (now : Int) (net : Nat → Nat → Http) (query : String)
    (total : Nat) (title : String) (cache : List CacheEntry) : FetchOut :=
  let r := fetchLoop now net query total title (total + 1) cache [] 0 0
  { papers := r.papers.take total,
    requestCount := r.requestCount,
    trace := Trace.app r.trace ⟨0, [], [Log.totalRequests title r.requestCount]⟩,
    cache := r.cache }

/-- Python `str.strip()`: drop leading and trailing whitespace.
(Defined on the character list so that concrete instances reduce.) -/
def pyStrip (s : String) : String :=
  ⟨((s.data.dropWhile Char.isWhitespace).reverse.dropWhile
      Char.isWhitespace).reverse⟩

/-- Python `title.replace(" ", "_")`: replace every space by an
underscore (single-character pattern, so a character map). -/
def pyReplaceSpace (s : String) : String :=
  ⟨s.data.map (fun c => if c = ' ' then '_' else c)⟩

/-- The Paper entity recorded in `paper_data`. -/
structure PaperRecord where
  paperId : String
  title : String
  url : String
  citationCount : Int
  publicationDate : Option String
  authorIds : List String
deriving Repr, DecidableEq

/-- An edge of the citation graph: `{"source": ..., "target": ...}`. -/
structure Link where
  source : String
  target : String
deriving Repr, DecidableEq

/-- The `paper_data` record built from a top-level paper payload. -/
def recordOfPaper (p : RawPaper) : PaperRecord :=
  ⟨p.paperId, p.title, p.url, p.citationCount, p.publicationDate,
   p.authors.map (fun a => a.authorId)⟩

/-- The `paper_data` record built from a reference/citation payload. -/
def recordOfRef (r : RefPaper) : PaperRecord :=
  ⟨r.paperId, r.title, r.url, r.citationCount, r.publicationDate,
   r.authors.map (fun a => a.authorId)⟩

/-- Python dict assignment `d[k] = v` on an insertion-ordered
association list: an existing key keeps its position and gets the new
value, a new key is appended at the end. -/
def dictInsert {α : Type} : List (String × α) → String → α →
    List (String × α)
  | [], k, v => [(k, v)]
  | e :: t, k, v => if e.1 = k then (e.1, v) :: t else e :: dictInsert t k v

/-- Reading `d[k]` from a `defaultdict(list)`: the list stored at the
entry for `k` (keys are unique), or `[]`. -/
def mdictGet : List (String × List String) → String → List String
  | [], _ => []
  | e :: t, k => if e.1 = k then e.2 else mdictGet t k

/-- `d[k].append(v)` on a `defaultdict(list)`: append to the list of an
existing key, or create the key with a one-element list. -/
def mdictAppend : List (String × List String) → String → String →
    List (String × List String)
  | [], k, v => [(k, [v])]
  | e :: t, k, v =>
    if e.1 = k then (e.1, e.2 ++ [v]) :: t else e :: mdictAppend t k v

/-- The accumulating tables of `generate_json`. -/
structure AggSt where
  papersDict : List (String × RawPaper)
  paperData : List (String × PaperRecord)
  links : List Link
  queriesData : List (String × List String)
  queriesMore : List (String × List String)
  authorsData : List (String × String)
deriving Repr, DecidableEq

/-- The empty tables created at the start of `generate_json`. -/
def emptyAgg : AggSt := ⟨[], [], [], [], [], []⟩

/-- `authors_data[author["authorId"]] = author["name"]`. -/
def insAuthor (st : AggSt) (a : Author) : AggSt :=
  { st with authorsData := dictInsert st.authorsData a.authorId a.name }

/-- The body of `for ref in paper.get("references", [])`: append the
paper→reference edge, record the reference's Paper entity (overwriting
any existing record for that id), record its authors, and append its id
to this query's extended-membership list if not already present. -/
def processRef (query pid : String) (st : AggSt) (ref : RefPaper) : AggSt :=
  let st := { st with links := st.links ++ [⟨pid, ref.paperId⟩],
                      paperData := dictInsert st.paperData ref.paperId
                        (recordOfRef ref) }
  let st := ref.authors.foldl insAuthor st
  if (mdictGet st.queriesMore query).contains ref.paperId then st
  else { st with queriesMore := mdictAppend st.queriesMore query ref.paperId }

/-- The body of `for cite in paper.get("citations", [])`: same as
`processRef` with the citation→paper edge direction. -/
def processCite (query pid : String) (st : AggSt) (cite : RefPaper) : AggSt :=
  let st := { st with links := st.links ++ [⟨cite.paperId, pid⟩],
                      paperData := dictInsert st.paperData cite.paperId
                        (recordOfRef cite) }
  let st := cite.authors.foldl insAuthor st
  if (mdictGet st.queriesMore query).contains cite.paperId then st
  else { st with queriesMore := mdictAppend st.queriesMore query cite.paperId }

/-- The body of `for paper in query_papers` in `generate_json`: if the
id has not been seen as a top-level hit, record it in `papers_dict` and
`paper_data`, register its authors, and process its references and
citations; in every case append the id to this query's top-level and
extended membership lists. -/
def processPaper (query : String) (st : AggSt) (paper : RawPaper) : AggSt :=
  let st :=
    if st.papersDict.any (fun e => e.1 = paper.paperId) then st
    else
      let st := { st with
        papersDict := st.papersDict ++ [(paper.paperId, paper)],
        paperData := dictInsert st.paperData paper.paperId
          (recordOfPaper paper) }
      let st := paper.authors.foldl insAuthor st
      let st := paper.references.foldl (processRef query paper.paperId) st
      paper.citations.foldl (processCite query paper.paperId) st
  { st with queriesData := mdictAppend st.queriesData query paper.paperId,
            queriesMore := mdictAppend st.queriesMore query paper.paperId }

/-- Fold one query's fetched papers into the tables. -/
def aggQuery (st : AggSt) (query : String) (papers : List RawPaper) : AggSt :=
  papers.foldl (processPaper query) st

/-- Fold every query's fetched papers into the tables, in order. -/
def aggregate (qps : List (String × List RawPaper)) (st : AggSt) : AggSt :=
  qps.foldl (fun st e => aggQuery st e.1 e.2) st

/-- The output document of `generate_json` (before JSON serialization):
display title with spaces replaced by underscores, Paper entities in
insertion order, the edge list, both membership indexes and the author
table. -/
structure GraphDoc where
  title : String
  papers : List PaperRecord
  links : List Link
  queries : List (String × List String)
  queriesMore : List (String × List String)
  authors : List (String × String)
deriving Repr, DecidableEq

/-- Serialize the final tables into the output document. -/
def docOfState (title : String) (st : AggSt) : GraphDoc :=
  { title := pyReplaceSpace title,
    papers := st.paperData.map (fun e => e.2),
    links := st.links,
    queries := st.queriesData,
    queriesMore := st.queriesMore,
    authors := st.authorsData }

/-- The fetched pages of every query, with the per-query logs and the
threaded cache file. -/
structure FetchAllOut where
  results : List (String × List RawPaper)
  trace : Trace
  cache : List CacheEntry
deriving Repr, DecidableEq

/-- The per-query fetch phase of `generate_json`: strip each query,
log it, and fetch its papers, threading the cache file through the
calls.  `numQueries` is `len(queries)` as printed in the log line. -/
def fetchAllGo (now : Int) (net : String → Nat → Nat → Http) (total : Nat)
    (title : String) (numQueries : Nat) :
    List String → Nat → List CacheEntry → FetchAllOut
  | [], _, cache => ⟨[], Trace.empty, cache⟩
  | q :: rest, idx, cache =>
    let q' := pyStrip q
    let f := fetch_papers now (net q') q' total title cache
    let r := fetchAllGo now net total title numQueries rest (idx + 1) f.cache
    ⟨(q', f.papers) :: r.results,
     Trace.app (Trace.app ⟨0, [], [Log.processingQuery title q' (idx + 1) numQueries]⟩
       f.trace) r.trace,
     r.cache⟩

/-- All queries' fetched papers, in order. -/
def fetchAll (now : Int) (net : String → Nat → Nat → Http)
    (queries : List String) (total : Nat) (title : String)
    (cache : List CacheEntry) : FetchAllOut :=
  fetchAllGo now net total title queries.length queries 0 cache

/-- `if not api_key:` — the credential is missing when `os.getenv`
returned nothing or the empty string (Python falsiness). -/
def keyMissing : Option String → Bool
  | none => true
  | some s => s.isEmpty

/-- Result of `generate_json`: the document (or `None`), the effects and
the final cache file contents. -/
structure GenOut where
  doc : Option GraphDoc
  trace : Trace
  cache : List CacheEntry
deriving Repr, DecidableEq

/-- `generate_json(queries, total_papers, title, room)`: abort with a
progress message when the API key is missing; otherwise fetch every
query's papers (stripping each query string), fold them into the
tables, log the number of distinct papers and build the document.
Fetching and folding are interleaved in the source; they are sequenced
here, which yields the same tables, trace and cache because the folding
step neither logs, sleeps, touches the network nor reads the cache. -/
def generate_json (apiKey : Option String) (cache : List CacheEntry)
    (now : Int) (net : String → Nat → Nat → Http) (queries : List String)
    (total : Nat) (title : String) : GenOut :=
  if keyMissing apiKey then
    ⟨none, ⟨0, [], [Log.apiKeyMissing]⟩, cache⟩
  else
    let f := fetchAll now net queries total title cache
    let st := aggregate f.results emptyAgg
    ⟨some (docOfState title st),
     Trace.app f.trace ⟨0, [], [Log.totalUnique title st.paperData.length]⟩,
     f.cache⟩

/-! ## Derived definitions and concrete inputs -/

/-- The keys of a membership index, in insertion order. -/
def mdictKeys (m : List (String × List String)) : List String :=
  m.map (fun e => e.1)

/-- The keys of a record table, in insertion order. -/
def dictKeys {α : Type} (m : List (String × α)) : List String :=
  m.map (fun e => e.1)

/-- The direct-hit paper ids recorded under key `k`. -/
def directHits (qps : List (String × List RawPaper)) (k : String) :
    List String :=
  (qps.filter (fun e => e.1 = k)).flatMap (fun e => e.2.map (fun p => p.paperId))

/-- `pid` occurs in the references of some paper fetched under key `k`. -/
def refDiscovered (qps : List (String × List RawPaper)) (k pid : String) :
    Bool :=
  (qps.filter (fun e => e.1 = k)).any
    (fun e => e.2.any (fun p => p.references.any (fun r => r.paperId = pid)))

/-- All paper ids fetched across all queries, in order. -/
def allIds (qps : List (String × List RawPaper)) : List String :=
  (qps.flatMap (fun e => e.2)).map (fun p => p.paperId)

/-- The cache lookup for `(query, 100, offset)` yields a truthy result:
the page is served from the cache. -/
def cacheServes (cache : List CacheEntry) (now : Int) (query : String)
    (offset : Nat) : Bool :=
  match (findSaved cache now query 100 offset).1 with
  | some r => r.truthy
  | none => false

/-- The page loop of `fetch_papers`, replayed against the cache alone:
it visits exactly the offsets the loop requests when every page is
served from the cache, and returns `true` iff each such lookup finds a
valid, truthy entry before a stop condition (count reached, or an empty
cached page).  It evolves the accumulator and offset exactly as
`fetchLoop` does on cache hits, so it characterizes "every requested
page is answered by a valid cache entry". -/
def cachedRunGo (now : Int) (cache : List CacheEntry) (query : String)
    (total : Nat) : Nat → List RawPaper → Nat → Bool
  | 0, _, _ => true
  | fuel + 1, acc, offset =>
    if acc.length < total then
      match (findSaved cache now query 100 offset).1 with
      | some r =>
        if r.truthy then
          if r.data.isEmpty then true
          else cachedRunGo now cache query total fuel (acc ++ r.data)
            (offset + 100)
        else false
      | none => false
    else true

/-- Every page `fetch_papers query total` requests is answered by a
valid cache entry. -/
def cachedRun (now : Int) (cache : List CacheEntry) (query : String)
    (total : Nat) : Bool :=
  cachedRunGo now cache query total (total + 1) [] 0

/-- A fixed all-failing HTTP endpoint: every attempt returns status 500. -/
def resp500 : Nat → Http := fun _ => ⟨500, ⟨[], false⟩⟩

/-- A dead network oracle (every GET fails with status 500). -/
def netDead : String → Nat → Nat → Http := fun _ _ _ => ⟨500, ⟨[], false⟩⟩

/-- A one-entry store whose entry was saved at day 0 and looked up at
day 10. -/
def staleEntry : CacheEntry := ⟨"q", 100, 0, ⟨[], true⟩, 0⟩

/-- First sighting of paper id `R`, as a reference with title `t1`. -/
def refR1 : RefPaper := ⟨"R", "t1", "", 0, none, []⟩

/-- Second sighting of paper id `R`, as a reference with title `t2`. -/
def refR2 : RefPaper := ⟨"R", "t2", "", 0, none, []⟩

/-- A top-level paper whose payload embeds `refR1`. -/
def paperA : RawPaper := ⟨"A", "tA", "", 0, none, [], [refR1], []⟩

/-- A top-level paper whose payload embeds `refR2`. -/
def paperB : RawPaper := ⟨"B", "tB", "", 0, none, [], [refR2], []⟩

/-- A paper with a duplicated reference and one citation. -/
def paperDup : RawPaper :=
  ⟨"D", "tD", "", 0, none, [], [refR1, refR1], [refR2]⟩

/-- A paper `X` whose payload references paper id `P`. -/
def paperX : RawPaper := ⟨"X", "tX", "", 0, none, [],
  [⟨"P", "tP", "", 0, none, []⟩], []⟩

/-- Paper id `P` as a top-level hit. -/
def paperP : RawPaper := ⟨"P", "tP", "", 0, none, [], [], []⟩

/-- One query whose hits are `paperA` then `paperB`. -/
def c1run : AggSt := aggregate [("q", [paperA, paperB])] emptyAgg

/-- The state after `paperA` has been folded in once. -/
def c1stA : AggSt := processPaper "q" emptyAgg paperA

/-- A run in which `P` is a reference discovered under query `b` AND a
direct hit of `b`, besides being a direct hit of `a`. -/
def c5qpsBad : List (String × List RawPaper) :=
  [("b", [paperX, paperP]), ("a", [paperP])]

/-- A run in which `P` is a reference discovered under `b` but only a
direct hit of `a`. -/
def c5qpsGood : List (String × List RawPaper) :=
  [("b", [paperX]), ("a", [paperP])]

/-- A cache whose only entry answers query `q` page 0 with `paperA`
(one paper, which embeds one reference). -/
def c2cache : List CacheEntry := [⟨"q", 100, 0, ⟨[paperA], true⟩, 0⟩]

/-- A cache whose only entry answers query `q` page 0 with `paperP`
(one paper, no references or citations). -/
def c2cacheW : List CacheEntry := [⟨"q", 100, 0, ⟨[paperP], true⟩, 0⟩]

/-- A cache that fully answers query `q` for `total_papers = 1`:
page 0 holds one paper, page 100 an empty page. -/
def c3cache : List CacheEntry :=
  [⟨"q", 100, 0, ⟨[paperP], true⟩, 0⟩, ⟨"q", 100, 100, ⟨[], true⟩, 0⟩]

/-! ## Basic helper lemmas -/

/-- The first key match of the scan is decided before validity: an
expired entry whose earlier same-key entries are at least as old makes
the scan return `none` with a cache-expiry message. -/
theorem findSaved_expired (now : Int) (e : CacheEntry) (l1 l2 : List CacheEntry)
    (hexp : CACHE_MAX_AGE_DAYS ≤ now - e.dateSaved)
    (hmono : ∀ e' ∈ l1,
      (e'.query = e.query ∧ e'.limit = e.limit ∧ e'.offset = e.offset) →
      e'.dateSaved ≤ e.dateSaved) :
    findSaved (l1 ++ e :: l2) now e.query e.limit e.offset =
      (none, [Log.cacheExpired e.query e.limit e.offset]) := by
  induction l1 with
  | nil =>
    have hv : is_cache_valid now e = false := by
      simp only [is_cache_valid, decide_eq_false_iff_not, not_lt]
      omega
    simp [findSaved, hv]
  | cons c t ih =>
    by_cases hc : c.query = e.query ∧ c.limit = e.limit ∧ c.offset = e.offset
    · have hd : c.dateSaved ≤ e.dateSaved := hmono c (by simp) hc
      have hv : is_cache_valid now c = false := by
        simp only [is_cache_valid, decide_eq_false_iff_not, not_lt]
        omega
      simp [findSaved, hc, hv]
    · simp only [List.cons_append, findSaved]
      rw [if_neg hc]
      exact ih (fun e' he' => hmono e' (List.mem_cons_of_mem c he'))

/-! ## C4: retry behaviour of the HTTP fetcher -/

/-- C4, as stated, is false: with `max_retries = 3` and an endpoint that
always answers 500, the fetcher returns `None` after 3 attempts but
sleeps **3** times (2 seconds after every failed attempt, including the
last), not 2. -/
theorem c4_counterexample :
    (make_api_call resp500 3).1 = none ∧
    (make_api_call resp500 3).2.requests = 3 ∧
    (make_api_call resp500 3).2.sleeps.length ≠ 2 ∧
    (make_api_call resp500 3).2.sleeps = [2, 2, 2] := by
  decide

/-- C4 (amended): with `max_retries = 3` against an endpoint returning a
non-200 status on all attempts, the fetcher makes exactly 3 request
attempts, sleeps exactly 3 times (a fixed 2-second interval after every
failed attempt, including the last), emits one error message per
attempt followed by the final failure message, and returns absent
without raising. -/
theorem c4_retry_exhaustion (responses : Nat → Http)
    (h : ∀ i, i < 3 → (responses i).status ≠ 200) :
    make_api_call responses 3 =
      (none,
       ⟨3, [2, 2, 2],
        [Log.attemptError 1 3 (responses 0).status,
         Log.attemptError 2 3 (responses 1).status,
         Log.attemptError 3 3 (responses 2).status,
         Log.retriesExhausted 3]⟩) := by
  have h0 := h 0 (by omega)
  have h1 := h 1 (by omega)
  have h2 := h 2 (by omega)
  simp [make_api_call, apiCallGo, h0, h1, h2]

/-- Witness for `c4_retry_exhaustion` at the all-500 endpoint. -/
theorem c4_retry_exhaustion_witness :
    (∀ i, i < 3 → (resp500 i).status ≠ 200) ∧
    make_api_call resp500 3 =
      (none,
       ⟨3, [2, 2, 2],
        [Log.attemptError 1 3 500, Log.attemptError 2 3 500,
         Log.attemptError 3 3 500, Log.retriesExhausted 3]⟩) :=
  ⟨by decide, c4_retry_exhaustion resp500 (by decide)⟩

/-! ## C8: expired cache lookup -/

/-- C8: a lookup whose exact key matches an entry older than the max-age
window returns absent, emits a cache-expiry progress message, and
returns the backing store unchanged (the stale entry is not deleted).
The hypothesis on the earlier part of the store reflects its append-only
construction: entries for the same key that precede `e` were saved no
later than `e`. -/
theorem c8_expired_lookup (cache l1 l2 : List CacheEntry) (e : CacheEntry)
    (now : Int) (hsplit : cache = l1 ++ e :: l2)
    (hexp : CACHE_MAX_AGE_DAYS ≤ now - e.dateSaved)
    (hmono : ∀ e' ∈ l1,
      (e'.query = e.query ∧ e'.limit = e.limit ∧ e'.offset = e.offset) →
      e'.dateSaved ≤ e.dateSaved) :
    get_saved_query cache now e.query e.limit e.offset =
      (none, [Log.cacheExpired e.query e.limit e.offset], cache) := by
  subst hsplit
  simp [get_saved_query, findSaved_expired now e l1 l2 hexp hmono]

/-- Witness for `c8_expired_lookup` on a concrete stale store. -/
theorem c8_expired_lookup_witness :
    CACHE_MAX_AGE_DAYS ≤ (10 : Int) - staleEntry.dateSaved ∧
    get_saved_query [staleEntry] 10 staleEntry.query staleEntry.limit
        staleEntry.offset =
      (none, [Log.cacheExpired "q" 100 0], [staleEntry]) :=
  ⟨by decide,
   c8_expired_lookup [staleEntry] [] [] staleEntry 10 rfl (by decide)
     (by simp)⟩

/-! ## C9: missing API credential -/

/-- C9: without an API credential (unset or empty, Python falsiness),
`generate_json` emits a progress message and returns absent: no network
request, no sleep, no other message, no document, and an unchanged
cache file. -/
theorem c9_missing_key (apiKey : Option String)
    (h : keyMissing apiKey = true) (cache : List CacheEntry) (now : Int)
    (net : String → Nat → Nat → Http) (queries : List String) (total : Nat)
    (title : String) :
    generate_json apiKey cache now net queries total title =
      ⟨none, ⟨0, [], [Log.apiKeyMissing]⟩, cache⟩ := by
  simp [generate_json, h]

/-- Witness for `c9_missing_key` with no key configured. -/
theorem c9_missing_key_witness :
    keyMissing none = true ∧
    generate_json none [] 0 netDead ["graph theory"] 5 "t" =
      ⟨none, ⟨0, [], [Log.apiKeyMissing]⟩, []⟩ :=
  ⟨rfl, c9_missing_key none rfl [] 0 netDead ["graph theory"] 5 "t"⟩

/-! ## Dictionary lemmas -/

theorem mdictGet_mdictAppend_self (m : List (String × List String))
    (k v : String) : mdictGet (mdictAppend m k v) k = mdictGet m k ++ [v] := by
  induction m with
  | nil => simp [mdictGet, mdictAppend]
  | cons e t ih =>
    by_cases he : e.1 = k
    · simp [mdictGet, mdictAppend, he]
    · simp [mdictGet, mdictAppend, he, ih]

theorem mdictGet_mdictAppend_ne (m : List (String × List String))
    {k k' : String} (h : k' ≠ k) (v : String) :
    mdictGet (mdictAppend m k v) k' = mdictGet m k' := by
  induction m with
  | nil => simp [mdictGet, mdictAppend, Ne.symm h]
  | cons e t ih =>
    by_cases he : e.1 = k
    · have : ¬ (e.1 = k') := by rw [he]; exact Ne.symm h
      simp [mdictGet, mdictAppend, he, this, Ne.symm h]
    · by_cases he' : e.1 = k'
      · simp [mdictGet, mdictAppend, he, he', h]
      · simp [mdictGet, mdictAppend, he, he', ih]

theorem mdictKeys_mdictAppend (m : List (String × List String))
    (k v : String) :
    mdictKeys (mdictAppend m k v) =
      if k ∈ mdictKeys m then mdictKeys m else mdictKeys m ++ [k] := by
  induction m with
  | nil => simp [mdictKeys, mdictAppend]
  | cons e t ih =>
    by_cases he : e.1 = k
    · simp [mdictKeys, mdictAppend, he]
    · have hne : ¬ (k = e.1) := fun hh => he hh.symm
      simp only [mdictKeys, mdictAppend, List.map_cons] at ih ⊢
      rw [if_neg he]
      simp only [List.map_cons, ih]
      by_cases hk : k ∈ List.map (fun e => e.1) t
      · simp [hk, hne]
      · simp [hk, hne]

theorem dictKeys_dictInsert {α : Type} (m : List (String × α)) (k : String)
    (v : α) :
    dictKeys (dictInsert m k v) =
      if k ∈ dictKeys m then dictKeys m else dictKeys m ++ [k] := by
  induction m with
  | nil => simp [dictKeys, dictInsert]
  | cons e t ih =>
    by_cases he : e.1 = k
    · simp [dictKeys, dictInsert, he]
    · have hne : ¬ (k = e.1) := fun hh => he hh.symm
      simp only [dictKeys, dictInsert, List.map_cons] at ih ⊢
      rw [if_neg he]
      simp only [List.map_cons, ih]
      by_cases hk : k ∈ List.map (fun e => e.1) t
      · simp [hk, hne]
      · simp [hk, hne]

/-! ## Aggregator step characterizations -/

theorem foldl_insAuthor (l : List Author) (st : AggSt) :
    l.foldl insAuthor st =
      { st with authorsData :=
          l.foldl (fun m a => dictInsert m a.authorId a.name) st.authorsData } := by
  induction l generalizing st with
  | nil => rfl
  | cons a t ih => simp [List.foldl, insAuthor, ih]

theorem processRef_eq (q pid : String) (st : AggSt) (r : RefPaper) :
    processRef q pid st r =
      { st with
        links := st.links ++ [⟨pid, r.paperId⟩],
        paperData := dictInsert st.paperData r.paperId (recordOfRef r),
        authorsData :=
          r.authors.foldl (fun m a => dictInsert m a.authorId a.name)
            st.authorsData,
        queriesMore :=
          if (mdictGet st.queriesMore q).contains r.paperId then
            st.queriesMore
          else mdictAppend st.queriesMore q r.paperId } := by
  simp only [processRef, foldl_insAuthor]
  split <;> rfl

theorem processCite_eq (q pid : String) (st : AggSt) (c : RefPaper) :
    processCite q pid st c =
      { st with
        links := st.links ++ [⟨c.paperId, pid⟩],
        paperData := dictInsert st.paperData c.paperId (recordOfRef c),
        authorsData :=
          c.authors.foldl (fun m a => dictInsert m a.authorId a.name)
            st.authorsData,
        queriesMore :=
          if (mdictGet st.queriesMore q).contains c.paperId then
            st.queriesMore
          else mdictAppend st.queriesMore q c.paperId } := by
  simp only [processCite, foldl_insAuthor]
  split <;> rfl

theorem refsFold_links (q pid : String) (refs : List RefPaper) (st : AggSt) :
    (refs.foldl (processRef q pid) st).links =
      st.links ++ refs.map (fun r => (⟨pid, r.paperId⟩ : Link)) := by
  induction refs generalizing st with
  | nil => simp
  | cons r t ih => simp [List.foldl, ih, processRef_eq]

theorem citesFold_links (q pid : String) (cites : List RefPaper) (st : AggSt) :
    (cites.foldl (processCite q pid) st).links =
      st.links ++ cites.map (fun c => (⟨c.paperId, pid⟩ : Link)) := by
  induction cites generalizing st with
  | nil => simp
  | cons c t ih => simp [List.foldl, ih, processCite_eq]

/-! ## C1: first-write-wins of the paper record table -/

/-- C1, as stated, is false: paper id `R` is first recorded (as a
reference of `paperA`) with title `t1`; its later sighting as a
reference of `paperB` overwrites the record, whose title ends up `t2`.
-/
theorem c1_counterexample :
    c1run.paperData.find? (fun e => e.1 = "R") =
        some ("R", recordOfRef refR2) ∧
    c1run.paperData.find? (fun e => e.1 = "R") ≠
        some ("R", recordOfRef refR1) := by
  decide

/-- C1 (amended): the record table is first-write-wins only across
top-level sightings: once a paperId is recorded as a top-level hit,
a later top-level sighting of it changes no table except the two
membership lists, which get the id appended.  (Sightings as a
reference or citation of a newly recorded paper overwrite the record
instead — `c1_counterexample`.) -/
theorem c1_top_level_first_write_wins (q : String) (st : AggSt)
    (p : RawPaper)
    (h : st.papersDict.any (fun e => e.1 = p.paperId) = true) :
    (processPaper q st p).paperData = st.paperData ∧
    (processPaper q st p).papersDict = st.papersDict ∧
    (processPaper q st p).links = st.links ∧
    (processPaper q st p).authorsData = st.authorsData ∧
    (processPaper q st p).queriesData =
      mdictAppend st.queriesData q p.paperId ∧
    (processPaper q st p).queriesMore =
      mdictAppend st.queriesMore q p.paperId := by
  simp [processPaper, h]

/-- Witness for `c1_top_level_first_write_wins`: re-sighting `paperA`
as a top-level hit leaves the record table unchanged. -/
theorem c1_top_level_first_write_wins_witness :
    c1stA.papersDict.any (fun e => e.1 = paperA.paperId) = true ∧
    (processPaper "q" c1stA paperA).paperData = c1stA.paperData :=
  ⟨by decide, (c1_top_level_first_write_wins "q" c1stA paperA (by decide)).1⟩

/-! ## C7: edge emission for newly sighted papers -/

/-- C7: for a top-level paper whose id has not yet been recorded as a
top-level hit, exactly one paper→reference edge is appended per
reference occurrence and exactly one citation→paper edge per citation
occurrence, in payload order (references first), with no edge
deduplication — the appended segment is the literal map over the
payload lists, duplicates included. -/
theorem c7_edge_emission (q : String) (st : AggSt) (p : RawPaper)
    (h : st.papersDict.any (fun e => e.1 = p.paperId) = false) :
    (processPaper q st p).links =
      st.links ++ p.references.map (fun r => (⟨p.paperId, r.paperId⟩ : Link))
               ++ p.citations.map (fun c => (⟨c.paperId, p.paperId⟩ : Link)) := by
  simp [processPaper, h, foldl_insAuthor, citesFold_links, refsFold_links,
    List.append_assoc]

/-- Witness for `c7_edge_emission`: both occurrences of the duplicated
reference yield an edge. -/
theorem c7_edge_emission_witness :
    emptyAgg.papersDict.any (fun e => e.1 = paperDup.paperId) = false ∧
    (processPaper "q" emptyAgg paperDup).links =
      [⟨"D", "R"⟩, ⟨"D", "R"⟩, ⟨"R", "D"⟩] :=
  ⟨rfl, by
    have h := c7_edge_emission "q" emptyAgg paperDup rfl
    simpa using h⟩

/-! ## C5: extended-membership lemmas -/

/-- Projection of `processRef_eq` onto the extended-membership index. -/
theorem processRef_more (q pid : String) (st : AggSt) (r : RefPaper) :
    (processRef q pid st r).queriesMore =
      if (mdictGet st.queriesMore q).contains r.paperId then st.queriesMore
      else mdictAppend st.queriesMore q r.paperId := by
  rw [processRef_eq]

/-- Projection of `processCite_eq` onto the extended-membership index. -/
theorem processCite_more (q pid : String) (st : AggSt) (c : RefPaper) :
    (processCite q pid st c).queriesMore =
      if (mdictGet st.queriesMore q).contains c.paperId then st.queriesMore
      else mdictAppend st.queriesMore q c.paperId := by
  rw [processCite_eq]

/-- Appending a value that is not in the list yet keeps every
occurrence count at most 1. -/
theorem appendNew_count_le {l : List String} {x P : String}
    (h : l.count P ≤ 1) (hx : l.contains x = false) :
    (l ++ [x]).count P ≤ 1 := by
  rw [List.count_append]
  by_cases hxP : x = P
  · have hmem : P ∉ l := by rw [← hxP]; simpa using hx
    have h0 : List.count P l = 0 := List.count_eq_zero.mpr hmem
    have h1 : List.count P [x] = 1 := by rw [hxP]; simp
    omega
  · have hPx : ¬ P = x := fun hh => hxP hh.symm
    have : List.count P [x] = 0 := List.count_eq_zero.mpr (by simpa using hPx)
    omega

/-- Appending a value different from `P` keeps `P`'s count. -/
theorem append_ne_count {l : List String} {x P : String} (h : x ≠ P) :
    (l ++ [x]).count P = l.count P := by
  rw [List.count_append]
  have hPx : ¬ P = x := fun hh => h hh.symm
  have : List.count P [x] = 0 := List.count_eq_zero.mpr (by simpa using hPx)
  omega

/-- A guarded reference append keeps the count of `P` in any key's
extended-membership list at most 1. -/
theorem processRef_more_count_le {kB P : String} (q pid : String)
    (st : AggSt) (r : RefPaper)
    (h : (mdictGet st.queriesMore kB).count P ≤ 1) :
    (mdictGet (processRef q pid st r).queriesMore kB).count P ≤ 1 := by
  rw [processRef_more]
  split
  · exact h
  · rename_i hc
    by_cases hq : kB = q
    · subst hq
      rw [mdictGet_mdictAppend_self]
      exact appendNew_count_le h (by simpa using hc)
    · rw [mdictGet_mdictAppend_ne _ hq]
      exact h

/-- A guarded citation append keeps the count of `P` in any key's
extended-membership list at most 1. -/
theorem processCite_more_count_le {kB P : String} (q pid : String)
    (st : AggSt) (c : RefPaper)
    (h : (mdictGet st.queriesMore kB).count P ≤ 1) :
    (mdictGet (processCite q pid st c).queriesMore kB).count P ≤ 1 := by
  rw [processCite_more]
  split
  · exact h
  · rename_i hc
    by_cases hq : kB = q
    · subst hq
      rw [mdictGet_mdictAppend_self]
      exact appendNew_count_le h (by simpa using hc)
    · rw [mdictGet_mdictAppend_ne _ hq]
      exact h

theorem refsFold_more_count_le {kB P : String} (q pid : String)
    (refs : List RefPaper) (st : AggSt)
    (h : (mdictGet st.queriesMore kB).count P ≤ 1) :
    (mdictGet ((refs.foldl (processRef q pid) st).queriesMore) kB).count P
      ≤ 1 := by
  induction refs generalizing st with
  | nil => exact h
  | cons r t ih => exact ih _ (processRef_more_count_le q pid st r h)

theorem citesFold_more_count_le {kB P : String} (q pid : String)
    (cites : List RefPaper) (st : AggSt)
    (h : (mdictGet st.queriesMore kB).count P ≤ 1) :
    (mdictGet ((cites.foldl (processCite q pid) st).queriesMore) kB).count P
      ≤ 1 := by
  induction cites generalizing st with
  | nil => exact h
  | cons c t ih => exact ih _ (processCite_more_count_le q pid st c h)

/-- The author fold never touches the extended-membership index. -/
theorem foldl_insAuthor_more (l : List Author) (st : AggSt) :
    (l.foldl insAuthor st).queriesMore = st.queriesMore := by
  rw [foldl_insAuthor]

/-- Folding one paper keeps the count of `P` in `queries_more[kB]` at
most 1, provided the paper is not a direct hit of `kB` with id `P`. -/
theorem processPaper_more_count_le {kB P : String} (q : String) (st : AggSt)
    (p : RawPaper) (hp : ¬(q = kB ∧ p.paperId = P))
    (h : (mdictGet st.queriesMore kB).count P ≤ 1) :
    (mdictGet (processPaper q st p).queriesMore kB).count P ≤ 1 := by
  unfold processPaper
  set st' := if st.papersDict.any (fun e => e.1 = p.paperId) then st
    else
      (p.citations.foldl (processCite q p.paperId)
        (p.references.foldl (processRef q p.paperId)
          (p.authors.foldl insAuthor
            { st with
              papersDict := st.papersDict ++ [(p.paperId, p)],
              paperData := dictInsert st.paperData p.paperId
                (recordOfPaper p) }))) with hst'
  have h' : (mdictGet st'.queriesMore kB).count P ≤ 1 := by
    rw [hst']
    split
    · exact h
    · apply citesFold_more_count_le
      apply refsFold_more_count_le
      rw [foldl_insAuthor_more]
      exact h
  show (mdictGet (mdictAppend st'.queriesMore q p.paperId) kB).count P ≤ 1
  by_cases hq : kB = q
  · subst hq
    have hne : p.paperId ≠ P := fun hh => hp ⟨rfl, hh⟩
    rw [mdictGet_mdictAppend_self, append_ne_count hne]
    exact h'
  · rw [mdictGet_mdictAppend_ne _ hq]
    exact h'

theorem aggQuery_more_count_le {kB P : String} (q : String)
    (papers : List RawPaper) (st : AggSt)
    (hp : ∀ p ∈ papers, ¬(q = kB ∧ p.paperId = P))
    (h : (mdictGet st.queriesMore kB).count P ≤ 1) :
    (mdictGet (aggQuery st q papers).queriesMore kB).count P ≤ 1 := by
  induction papers generalizing st with
  | nil => exact h
  | cons p t ih =>
    exact ih _ (fun p' hp' => hp p' (List.mem_cons_of_mem p hp'))
      (processPaper_more_count_le q st p (hp p (List.mem_cons_self p t)) h)

theorem aggregate_more_count_le {kB P : String}
    (qps : List (String × List RawPaper)) (st : AggSt)
    (hp : ∀ e ∈ qps, ∀ p ∈ e.2, ¬(e.1 = kB ∧ p.paperId = P))
    (h : (mdictGet st.queriesMore kB).count P ≤ 1) :
    (mdictGet (aggregate qps st).queriesMore kB).count P ≤ 1 := by
  induction qps generalizing st with
  | nil => exact h
  | cons e t ih =>
    exact ih _ (fun e' he' => hp e' (List.mem_cons_of_mem e he'))
      (aggQuery_more_count_le e.1 e.2 st
        (fun p hp' => hp e (List.mem_cons_self e t) p hp') h)

/-- `aggQuery` unfolds one paper at a time. -/
theorem aggQuery_cons (st : AggSt) (q : String) (p : RawPaper)
    (papers : List RawPaper) :
    aggQuery st q (p :: papers) = aggQuery (processPaper q st p) q papers :=
  rfl

/-- `aggregate` unfolds one query at a time. -/
theorem aggregate_cons (e : String × List RawPaper)
    (t : List (String × List RawPaper)) (st : AggSt) :
    aggregate (e :: t) st = aggregate t (aggQuery st e.1 e.2) :=
  rfl

/-- Membership in a key's list survives any `mdictAppend`. -/
theorem mem_mdictAppend_preserve {m : List (String × List String)}
    {k P : String} (k' v : String) (h : P ∈ mdictGet m k) :
    P ∈ mdictGet (mdictAppend m k' v) k := by
  by_cases hk : k = k'
  · subst hk
    rw [mdictGet_mdictAppend_self]
    exact List.mem_append_left _ h
  · rw [mdictGet_mdictAppend_ne _ hk]
    exact h

theorem processRef_more_mem {k P : String} (q pid : String) (st : AggSt)
    (r : RefPaper) (h : P ∈ mdictGet st.queriesMore k) :
    P ∈ mdictGet (processRef q pid st r).queriesMore k := by
  rw [processRef_more]
  split
  · exact h
  · exact mem_mdictAppend_preserve _ _ h

theorem processCite_more_mem {k P : String} (q pid : String) (st : AggSt)
    (c : RefPaper) (h : P ∈ mdictGet st.queriesMore k) :
    P ∈ mdictGet (processCite q pid st c).queriesMore k := by
  rw [processCite_more]
  split
  · exact h
  · exact mem_mdictAppend_preserve _ _ h

theorem refsFold_more_mem {k P : String} (q pid : String)
    (refs : List RefPaper) (st : AggSt) (h : P ∈ mdictGet st.queriesMore k) :
    P ∈ mdictGet ((refs.foldl (processRef q pid) st).queriesMore) k := by
  induction refs generalizing st with
  | nil => exact h
  | cons r t ih => exact ih _ (processRef_more_mem q pid st r h)

theorem citesFold_more_mem {k P : String} (q pid : String)
    (cites : List RefPaper) (st : AggSt) (h : P ∈ mdictGet st.queriesMore k) :
    P ∈ mdictGet ((cites.foldl (processCite q pid) st).queriesMore) k := by
  induction cites generalizing st with
  | nil => exact h
  | cons c t ih => exact ih _ (processCite_more_mem q pid st c h)

theorem processPaper_more_mem {k P : String} (q : String) (st : AggSt)
    (p : RawPaper) (h : P ∈ mdictGet st.queriesMore k) :
    P ∈ mdictGet (processPaper q st p).queriesMore k := by
  unfold processPaper
  set st' := if st.papersDict.any (fun e => e.1 = p.paperId) then st
    else
      (p.citations.foldl (processCite q p.paperId)
        (p.references.foldl (processRef q p.paperId)
          (p.authors.foldl insAuthor
            { st with
              papersDict := st.papersDict ++ [(p.paperId, p)],
              paperData := dictInsert st.paperData p.paperId
                (recordOfPaper p) }))) with hst'
  have h' : P ∈ mdictGet st'.queriesMore k := by
    rw [hst']
    split
    · exact h
    · apply citesFold_more_mem
      apply refsFold_more_mem
      rw [foldl_insAuthor_more]
      exact h
  exact mem_mdictAppend_preserve _ _ h'

theorem aggQuery_more_mem {k P : String} (q : String)
    (papers : List RawPaper) (st : AggSt) (h : P ∈ mdictGet st.queriesMore k) :
    P ∈ mdictGet (aggQuery st q papers).queriesMore k := by
  induction papers generalizing st with
  | nil => exact h
  | cons p t ih => exact ih _ (processPaper_more_mem q st p h)

theorem aggregate_more_mem {k P : String}
    (qps : List (String × List RawPaper)) (st : AggSt)
    (h : P ∈ mdictGet st.queriesMore k) :
    P ∈ mdictGet (aggregate qps st).queriesMore k := by
  induction qps generalizing st with
  | nil => exact h
  | cons e t ih => exact ih _ (aggQuery_more_mem e.1 e.2 st h)

/-- Every processed top-level paper's id is appended to this query's
extended-membership list. -/
theorem processPaper_self_more_mem (q : String) (st : AggSt) (p : RawPaper) :
    p.paperId ∈ mdictGet (processPaper q st p).queriesMore q := by
  simp [processPaper, mdictGet_mdictAppend_self]

theorem aggQuery_hit_more_mem {P : String} (q : String)
    (papers : List RawPaper) (st : AggSt)
    (h : P ∈ papers.map (fun p => p.paperId)) :
    P ∈ mdictGet (aggQuery st q papers).queriesMore q := by
  induction papers generalizing st with
  | nil => simp at h
  | cons p t ih =>
    rw [aggQuery_cons]
    rcases List.mem_map.mp h with ⟨p', hp', hid⟩
    rcases List.mem_cons.mp hp' with h1 | h2
    · subst h1
      rw [← hid]
      exact aggQuery_more_mem q t _ (processPaper_self_more_mem q st p')
    · exact ih _ (List.mem_map.mpr ⟨p', h2, hid⟩)

theorem directHits_cons (e : String × List RawPaper)
    (t : List (String × List RawPaper)) (k : String) :
    directHits (e :: t) k =
      (if e.1 = k then e.2.map (fun p => p.paperId) else []) ++
        directHits t k := by
  by_cases hk : e.1 = k <;> simp [directHits, List.filter_cons, hk]

/-- Introduction rule for `directHits` membership. -/
theorem directHit_of {qps : List (String × List RawPaper)} {k P : String}
    {e : String × List RawPaper} (he : e ∈ qps) (hk : e.1 = k)
    {p : RawPaper} (hp : p ∈ e.2) (hid : p.paperId = P) :
    P ∈ directHits qps k := by
  unfold directHits
  exact List.mem_flatMap.mpr
    ⟨e, List.mem_filter.mpr ⟨he, by simp [hk]⟩,
     List.mem_map.mpr ⟨p, hp, hid⟩⟩

/-- Every direct hit under key `kA` ends up in `queries_more[kA]`. -/
theorem aggregate_directHit_more_mem {P kA : String}
    (qps : List (String × List RawPaper)) (st : AggSt)
    (h : P ∈ directHits qps kA) :
    P ∈ mdictGet (aggregate qps st).queriesMore kA := by
  induction qps generalizing st with
  | nil => simp [directHits] at h
  | cons e t ih =>
    rw [directHits_cons] at h
    rw [aggregate_cons]
    rcases List.mem_append.mp h with h1 | h2
    · by_cases hk : e.1 = kA
      · rw [if_pos hk] at h1
        rw [← hk]
        exact aggregate_more_mem t _ (aggQuery_hit_more_mem e.1 e.2 st h1)
      · rw [if_neg hk] at h1
        simp at h1
    · exact ih _ h2

/-- C5 (amended): over any run, a paper id `P` that is a direct hit
under key `kA` and is discovered as a reference while processing key
`kB` — provided `P` is not itself a direct hit under `kB` — occurs at
most once in `queries_more[kB]` and at least once in
`queries_more[kA]`.  (The reference-discovery hypothesis is retained
from the claim; the at-most-once bound needs only the non-direct-hit
hypothesis.) -/
theorem c5_more_membership (qps : List (String × List RawPaper))
    (kA kB P : String) (hA : P ∈ directHits qps kA)
    (hB : refDiscovered qps kB P = true)
    (hnotB : P ∉ directHits qps kB) :
    (mdictGet (aggregate qps emptyAgg).queriesMore kB).count P ≤ 1 ∧
    P ∈ mdictGet (aggregate qps emptyAgg).queriesMore kA := by
  constructor
  · apply aggregate_more_count_le qps emptyAgg
    · intro e he p hp hc
      exact hnotB (directHit_of he hc.1 hp hc.2)
    · simp [emptyAgg, mdictGet]
  · exact aggregate_directHit_more_mem qps emptyAgg hA

/-- C5, as stated, is false: in `c5qpsBad`, `P` is a direct hit of
query `a` and is discovered as a reference while processing query `b`,
yet `queries_more[b]` holds `P` twice — the guarded reference append
and the unguarded direct-hit append both fire, because `P` is also a
direct hit of `b`. -/
theorem c5_counterexample :
    "P" ∈ directHits c5qpsBad "a" ∧
    refDiscovered c5qpsBad "b" "P" = true ∧
    (mdictGet (aggregate c5qpsBad emptyAgg).queriesMore "b").count "P" = 2 := by
  decide

/-- Witness for `c5_more_membership` on the run `c5qpsGood`. -/
theorem c5_more_membership_witness :
    ("P" ∈ directHits c5qpsGood "a" ∧
     refDiscovered c5qpsGood "b" "P" = true ∧
     "P" ∉ directHits c5qpsGood "b") ∧
    ((mdictGet (aggregate c5qpsGood emptyAgg).queriesMore "b").count "P" ≤ 1 ∧
     "P" ∈ mdictGet (aggregate c5qpsGood emptyAgg).queriesMore "a") :=
  ⟨by decide,
   c5_more_membership c5qpsGood "a" "b" "P" (by decide) (by decide)
     (by decide)⟩

/-! ## C2: paper-count lemmas -/

theorem allIds_cons (e : String × List RawPaper)
    (t : List (String × List RawPaper)) :
    allIds (e :: t) = e.2.map (fun p => p.paperId) ++ allIds t := by
  simp [allIds]

/-- Folding a reference-free, citation-free paper whose id is fresh
appends exactly that id to both paper tables. -/
theorem processPaper_new_keys (q : String) (st : AggSt) (p : RawPaper)
    (hrefs : p.references = []) (hcites : p.citations = [])
    (hnew : p.paperId ∉ dictKeys st.papersDict)
    (hnew2 : p.paperId ∉ dictKeys st.paperData) :
    dictKeys (processPaper q st p).papersDict =
      dictKeys st.papersDict ++ [p.paperId] ∧
    dictKeys (processPaper q st p).paperData =
      dictKeys st.paperData ++ [p.paperId] := by
  have hany : st.papersDict.any (fun e => e.1 = p.paperId) = false := by
    simp only [List.any_eq_false, decide_eq_true_eq]
    intro e he hc
    exact hnew (List.mem_map.mpr ⟨e, he, hc⟩)
  constructor
  · simp [processPaper, hany, hrefs, hcites, foldl_insAuthor, dictKeys]
  · simp [processPaper, hany, hrefs, hcites, foldl_insAuthor,
      dictKeys_dictInsert, hnew2]

theorem aggQuery_keys (q : String) (papers : List RawPaper) (st : AggSt)
    (done : List String) (hd1 : dictKeys st.papersDict = done)
    (hd2 : dictKeys st.paperData = done)
    (hnd : (done ++ papers.map (fun p => p.paperId)).Nodup)
    (hflat : ∀ p ∈ papers, p.references = [] ∧ p.citations = []) :
    dictKeys (aggQuery st q papers).papersDict =
      done ++ papers.map (fun p => p.paperId) ∧
    dictKeys (aggQuery st q papers).paperData =
      done ++ papers.map (fun p => p.paperId) := by
  induction papers generalizing st done with
  | nil => simpa [aggQuery] using ⟨hd1, hd2⟩
  | cons p t ih =>
    rw [aggQuery_cons]
    have hmem : p.paperId ∈ p.paperId :: t.map (fun p => p.paperId) :=
      List.mem_cons_self _ _
    have hdisj : done.Disjoint (p.paperId :: t.map (fun p => p.paperId)) := by
      rw [List.map_cons] at hnd
      exact (List.nodup_append.mp hnd).2.2
    have hnotin : p.paperId ∉ done := fun hmemd => hdisj hmemd hmem
    have hstep := processPaper_new_keys q st p (hflat p (List.mem_cons_self p t)).1
      (hflat p (List.mem_cons_self p t)).2 (hd1 ▸ hnotin) (hd2 ▸ hnotin)
    have hassoc : done ++ (p :: t).map (fun p => p.paperId) =
        (done ++ [p.paperId]) ++ t.map (fun p => p.paperId) := by
      simp
    rw [hassoc] at hnd ⊢
    exact ih (processPaper q st p) (done ++ [p.paperId])
      (hstep.1.trans (by rw [hd1])) (hstep.2.trans (by rw [hd2])) hnd
      (fun p' hp' => hflat p' (List.mem_cons_of_mem p hp'))

theorem aggregate_keys_allIds (qps : List (String × List RawPaper))
    (st : AggSt) (done : List String) (hd1 : dictKeys st.papersDict = done)
    (hd2 : dictKeys st.paperData = done)
    (hnd : (done ++ allIds qps).Nodup)
    (hflat : ∀ e ∈ qps, ∀ p ∈ e.2, p.references = [] ∧ p.citations = []) :
    dictKeys (aggregate qps st).paperData = done ++ allIds qps := by
  induction qps generalizing st done with
  | nil => simpa [aggregate, allIds] using hd2
  | cons e t ih =>
    rw [aggregate_cons]
    rw [allIds_cons, ← List.append_assoc] at hnd ⊢
    have hnd' : (done ++ e.2.map (fun p => p.paperId)).Nodup :=
      List.Nodup.sublist (List.sublist_append_left _ _) hnd
    have hstep := aggQuery_keys e.1 e.2 st done hd1 hd2 hnd'
      (fun p hp => hflat e (List.mem_cons_self e t) p hp)
    exact ih (aggQuery st e.1 e.2) _ hstep.1 hstep.2 hnd
      (fun e' he' p hp => hflat e' (List.mem_cons_of_mem e he') p hp)

/-- C2 (amended): if, over the fetched results, no paper id occurs
twice (across or within queries) and no fetched paper embeds any
reference or citation, then the output papers list has exactly one
entry per fetched paper: its length is the sum of the per-query fetched
counts.  (Without the two added hypotheses the claim fails,
`c2_counterexample`.) -/
theorem c2_paper_count (apiKey : Option String)
    (hk : keyMissing apiKey = false) (cache : List CacheEntry) (now : Int)
    (net : String → Nat → Nat → Http) (qs : List String) (total : Nat)
    (title : String)
    (hnodup : (allIds (fetchAll now net qs total title cache).results).Nodup)
    (hflat : ∀ p ∈ (fetchAll now net qs total title cache).results.flatMap
        (fun e => e.2), p.references = [] ∧ p.citations = []) :
    ∃ d, (generate_json apiKey cache now net qs total title).doc = some d ∧
      d.papers.length =
        ((fetchAll now net qs total title cache).results.map
          (fun e => e.2.length)).sum := by
  refine ⟨docOfState title
    (aggregate (fetchAll now net qs total title cache).results emptyAgg),
    ?_, ?_⟩
  · simp [generate_json, hk]
  · have hkeys := aggregate_keys_allIds
      (fetchAll now net qs total title cache).results emptyAgg [] rfl rfl
      (by simpa using hnodup)
      (fun e he p hp => hflat p (List.mem_flatMap.mpr ⟨e, he, hp⟩))
    have h1 : (docOfState title
        (aggregate (fetchAll now net qs total title cache).results
          emptyAgg)).papers.length =
        (dictKeys (aggregate (fetchAll now net qs total title cache).results
          emptyAgg).paperData).length := by
      simp [docOfState, dictKeys]
    rw [h1, hkeys]
    simp only [allIds, List.nil_append, List.length_map, List.length_flatMap]
    rfl

/-- C2, as stated, is false: a single query (so trivially no paper id
occurs in the fetched results of more than one query) fetches exactly
one paper, but that paper embeds a reference, so the output papers list
has 2 entries, not 1. -/
theorem c2_counterexample :
    ((generate_json (some "k") c2cache 0 netDead ["q"] 1 "t").doc.map
      (fun d => d.papers.length)) = some 2 ∧
    ((fetchAll 0 netDead ["q"] 1 "t" c2cache).results.map
      (fun e => e.2.length)).sum = 1 := by
  decide

/-- Witness for `c2_paper_count` on a one-query, one-paper run. -/
theorem c2_paper_count_witness :
    (keyMissing (some "k") = false ∧
     (allIds (fetchAll 0 netDead ["q"] 1 "t" c2cacheW).results).Nodup ∧
     ∀ p ∈ (fetchAll 0 netDead ["q"] 1 "t" c2cacheW).results.flatMap
        (fun e => e.2), p.references = [] ∧ p.citations = []) ∧
    (∃ d, (generate_json (some "k") c2cacheW 0 netDead ["q"] 1 "t").doc =
        some d ∧
      d.papers.length =
        ((fetchAll 0 netDead ["q"] 1 "t" c2cacheW).results.map
          (fun e => e.2.length)).sum) :=
  ⟨⟨rfl, by decide, by decide⟩,
   c2_paper_count (some "k") rfl c2cacheW 0 netDead ["q"] 1 "t" (by decide)
     (by decide)⟩

/-! ## C3: fully cached queries -/

/-- A cache lookup that finds a valid, truthy entry makes
`search_semantic_scholar` return exactly that cached result with no
request, no sleep and an untouched cache file. -/
theorem search_cached_eq (cache : List CacheEntry) (now : Int)
    (net : Nat → Http) (query : String) (offset : Nat) (r : ApiResult)
    (hr : (findSaved cache now query 100 offset).1 = some r)
    (ht : r.truthy = true) :
    search_semantic_scholar cache now net query 100 offset =
      ⟨some r,
       ⟨0, [], (findSaved cache now query 100 offset).2 ++
          [Log.usingCached query 100 offset]⟩,
       cache⟩ := by
  simp [search_semantic_scholar, get_saved_query, hr, ht]

/-- Loop invariant for a fully cached query: from any state at which
the cache replay (`cachedRunGo`) answers every requested page, the page
loop issues no GET request, sleeps only the 1-second page delay, and
leaves the cache file unchanged. -/
theorem fetchLoop_cached (now : Int) (net : Nat → Nat → Http)
    (query : String) (total : Nat) (title : String)
    (cache : List CacheEntry) :
    ∀ fuel acc offset reqCount,
      cachedRunGo now cache query total fuel acc offset = true →
      (fetchLoop now net query total title fuel cache acc offset
          reqCount).trace.requests = 0 ∧
      (∀ s ∈ (fetchLoop now net query total title fuel cache acc offset
          reqCount).trace.sleeps, s = 1) ∧
      (fetchLoop now net query total title fuel cache acc offset
          reqCount).cache = cache := by
  intro fuel
  induction fuel with
  | zero =>
    intro acc offset rq _
    exact ⟨rfl, by simp [fetchLoop, Trace.empty], rfl⟩
  | succ fuel ih =>
    intro acc offset rq h
    by_cases hlt : acc.length < total
    · simp only [cachedRunGo, hlt, if_true] at h
      cases hr : (findSaved cache now query 100 offset).1 with
      | none => rw [hr] at h; simp at h
      | some r =>
        rw [hr] at h
        by_cases ht : r.truthy
        · have hsearch := search_cached_eq cache now (net offset) query
            offset r hr ht
          by_cases hd : r.data.isEmpty
          · simp [fetchLoop, hlt, hsearch, hd]
          · have h' : cachedRunGo now cache query total fuel (acc ++ r.data)
                (offset + 100) = true := by
              simpa [ht, hd] using h
            have hrec := ih (acc ++ r.data) (offset + 100) (rq + 1) h'
            simp only [fetchLoop, hlt, if_true, hsearch, hd,
              Bool.false_eq_true, if_false, Trace.app] at hrec ⊢
            refine ⟨by simp [hrec.1], ?_, by simp [hrec.2.2]⟩
            intro s hs
            simp at hs
            rcases hs with hs | hs
            · exact hs
            · exact hrec.2.1 s hs
        · simp [ht] at h
    · exact ⟨by simp [fetchLoop, hlt, Trace.empty],
        by simp [fetchLoop, hlt, Trace.empty],
        by simp [fetchLoop, hlt]⟩

/-- C3 (amended): a query whose every *requested* page lookup is served
by a valid (truthy, non-expired, key-matching) cache entry — the
hypothesis `cachedRun` replays the loop against only the cache, so it
constrains exactly the offsets the loop requests — performs no live
network call, and every sleep it performs is the fixed 1-second
post-page delay (no 2-second retry back-off); the 1-second delay does
still occur after each non-empty cached page (`c3_counterexample`). -/
theorem c3_cached_no_network (now : Int) (net : Nat → Nat → Http)
    (query : String) (total : Nat) (title : String)
    (cache : List CacheEntry) (h : cachedRun now cache query total = true) :
    (fetch_papers now net query total title cache).trace.requests = 0 ∧
    ∀ s ∈ (fetch_papers now net query total title cache).trace.sleeps,
      s = 1 := by
  have hloop := fetchLoop_cached now net query total title cache
    (total + 1) [] 0 0 h
  constructor
  · simp [fetch_papers, Trace.app, hloop.1]
  · intro s hs
    simp [fetch_papers, Trace.app] at hs
    exact hloop.2.1 s hs

/-- C3, as stated, is false: with every requested page served from a
valid cache entry the fetch makes no live network call, but it still
performs the 1-second rate-limiting sleep after the (cached) non-empty
page. -/
theorem c3_counterexample :
    cachedRun 0 c3cache "q" 1 = true ∧
    (∀ j, j < 2 → cacheServes c3cache 0 "q" (100 * j) = true) ∧
    (fetch_papers 0 (netDead "q") "q" 1 "t" c3cache).trace.requests = 0 ∧
    (fetch_papers 0 (netDead "q") "q" 1 "t" c3cache).trace.sleeps = [1] := by
  decide

/-- Witness for `c3_cached_no_network` on a natural re-run store: only
the one page the loop requests (offset 0) is cached. -/
theorem c3_cached_no_network_witness :
    cachedRun 0 c2cacheW "q" 1 = true ∧
    (fetch_papers 0 (netDead "q") "q" 1 "t" c2cacheW).trace.requests = 0 :=
  ⟨by decide,
   (c3_cached_no_network 0 (netDead "q") "q" 1 "t" c2cacheW (by decide)).1⟩

/-! ## C6: pagination contract -/

/-- C6: `fetch_papers` returns at most `total_papers` papers, returns
exactly `total_papers` when the loop accumulated at least that many,
and its page loop stops exactly per the three conditions, checked in
this order each iteration: (a) accumulated ≥ `total_papers` — stop
before any call; (b) the API/cache call returns absent — stop keeping
the accumulated papers; (c) the returned page's data list is empty —
stop keeping the accumulated papers. -/
theorem c6_fetch_contract (now : Int) (net : Nat → Nat → Http)
    (query : String) (total : Nat) (title : String)
    (cache : List CacheEntry) :
    (fetch_papers now net query total title cache).papers.length ≤ total ∧
    (total ≤ (fetchLoop now net query total title (total + 1) cache [] 0
        0).papers.length →
      (fetch_papers now net query total title cache).papers.length = total) ∧
    (∀ fuel (cache' : List CacheEntry) (acc : List RawPaper) (offset rq : Nat),
      total ≤ acc.length →
      fetchLoop now net query total title fuel cache' acc offset rq =
        ⟨acc, rq, Trace.empty, cache'⟩) ∧
    (∀ fuel (cache' : List CacheEntry) (acc : List RawPaper) (offset rq : Nat),
      acc.length < total →
      (search_semantic_scholar cache' now (net offset) query 100
        offset).result = none →
      fetchLoop now net query total title (fuel + 1) cache' acc offset rq =
        ⟨acc, rq + 1,
         (search_semantic_scholar cache' now (net offset) query 100
           offset).trace,
         (search_semantic_scholar cache' now (net offset) query 100
           offset).cache⟩) ∧
    (∀ fuel (cache' : List CacheEntry) (acc : List RawPaper) (offset rq : Nat)
      (d : ApiResult), acc.length < total →
      (search_semantic_scholar cache' now (net offset) query 100
        offset).result = some d →
      d.data = [] →
      fetchLoop now net query total title (fuel + 1) cache' acc offset rq =
        ⟨acc, rq + 1,
         (search_semantic_scholar cache' now (net offset) query 100
           offset).trace,
         (search_semantic_scholar cache' now (net offset) query 100
           offset).cache⟩) := by
  have hp : (fetch_papers now net query total title cache).papers =
      (fetchLoop now net query total title (total + 1) cache [] 0
        0).papers.take total := rfl
  refine ⟨?_, ?_, ?_, ?_, ?_⟩
  · rw [hp, List.length_take]
    exact min_le_left _ _
  · intro h
    rw [hp, List.length_take]
    exact min_eq_left h
  · intro fuel cache' acc offset rq h
    cases fuel with
    | zero => rfl
    | succ fuel => simp [fetchLoop, Nat.not_lt.mpr h]
  · intro fuel cache' acc offset rq hlt hres
    simp [fetchLoop, hlt, hres]
  · intro fuel cache' acc offset rq d hlt hres hd
    simp [fetchLoop, hlt, hres, hd]

/-- Witness for `c6_fetch_contract`: the absent-result stop condition at
a concrete input (dead network, empty cache). -/
theorem c6_fetch_contract_witness :
    ((([] : List RawPaper).length < 1) ∧
     (search_semantic_scholar [] 0 (netDead "q" 0) "q" 100 0).result =
       none) ∧
    fetchLoop 0 (netDead "q") "q" 1 "t" 1 [] [] 0 0 =
      ⟨[], 1, (search_semantic_scholar [] 0 (netDead "q" 0) "q" 100 0).trace,
       (search_semantic_scholar [] 0 (netDead "q" 0) "q" 100 0).cache⟩ :=
  ⟨⟨by decide, by decide⟩,
   (c6_fetch_contract 0 (netDead "q") "q" 1 "t" []).2.2.2.1 0 [] [] 0 0
     (by decide) (by decide)⟩

/-! ## C10: stripped query keys -/

theorem mdictKeys_mdictAppend_subset (m : List (String × List String))
    (k v : String) : mdictKeys (mdictAppend m k v) ⊆ mdictKeys m ++ [k] := by
  rw [mdictKeys_mdictAppend]
  split
  · exact List.subset_append_left _ _
  · exact List.Subset.refl _

theorem mdictKeys_mdictAppend_nodup (m : List (String × List String))
    (k v : String) (h : (mdictKeys m).Nodup) :
    (mdictKeys (mdictAppend m k v)).Nodup := by
  rw [mdictKeys_mdictAppend]
  split
  · exact h
  · rename_i hmem
    refine List.Nodup.append h (List.nodup_singleton k) ?_
    intro a ha hb
    rw [List.mem_singleton] at hb
    subst hb
    exact hmem ha

/-- Chaining keys-subset bounds for a fixed appended key. -/
theorem keys_subset_step {l0 l1 l2 : List String} {q : String}
    (h12 : l2 ⊆ l1 ++ [q]) (h01 : l1 ⊆ l0 ++ [q]) : l2 ⊆ l0 ++ [q] := by
  intro a ha
  rcases List.mem_append.mp (h12 ha) with hm | hm
  · exact h01 hm
  · exact List.mem_append_right _ hm

theorem processRef_more_keys (q pid : String) (st : AggSt) (r : RefPaper) :
    mdictKeys (processRef q pid st r).queriesMore ⊆
      mdictKeys st.queriesMore ++ [q] ∧
    ((mdictKeys st.queriesMore).Nodup →
      (mdictKeys (processRef q pid st r).queriesMore).Nodup) := by
  rw [processRef_more]
  split
  · exact ⟨List.subset_append_left _ _, fun h => h⟩
  · exact ⟨mdictKeys_mdictAppend_subset _ _ _,
      fun h => mdictKeys_mdictAppend_nodup _ _ _ h⟩

theorem processCite_more_keys (q pid : String) (st : AggSt) (c : RefPaper) :
    mdictKeys (processCite q pid st c).queriesMore ⊆
      mdictKeys st.queriesMore ++ [q] ∧
    ((mdictKeys st.queriesMore).Nodup →
      (mdictKeys (processCite q pid st c).queriesMore).Nodup) := by
  rw [processCite_more]
  split
  · exact ⟨List.subset_append_left _ _, fun h => h⟩
  · exact ⟨mdictKeys_mdictAppend_subset _ _ _,
      fun h => mdictKeys_mdictAppend_nodup _ _ _ h⟩

theorem refsFold_more_keys (q pid : String) (refs : List RefPaper)
    (st : AggSt) :
    mdictKeys ((refs.foldl (processRef q pid) st).queriesMore) ⊆
      mdictKeys st.queriesMore ++ [q] ∧
    ((mdictKeys st.queriesMore).Nodup →
      (mdictKeys ((refs.foldl (processRef q pid) st).queriesMore)).Nodup) := by
  induction refs generalizing st with
  | nil => exact ⟨List.subset_append_left _ _, fun h => h⟩
  | cons r t ih =>
    have h1 := processRef_more_keys q pid st r
    have h2 := ih (processRef q pid st r)
    exact ⟨keys_subset_step h2.1 h1.1, fun h => h2.2 (h1.2 h)⟩

theorem citesFold_more_keys (q pid : String) (cites : List RefPaper)
    (st : AggSt) :
    mdictKeys ((cites.foldl (processCite q pid) st).queriesMore) ⊆
      mdictKeys st.queriesMore ++ [q] ∧
    ((mdictKeys st.queriesMore).Nodup →
      (mdictKeys ((cites.foldl (processCite q pid) st).queriesMore)).Nodup) := by
  induction cites generalizing st with
  | nil => exact ⟨List.subset_append_left _ _, fun h => h⟩
  | cons c t ih =>
    have h1 := processCite_more_keys q pid st c
    have h2 := ih (processCite q pid st c)
    exact ⟨keys_subset_step h2.1 h1.1, fun h => h2.2 (h1.2 h)⟩

theorem processPaper_more_keys (q : String) (st : AggSt) (p : RawPaper) :
    mdictKeys (processPaper q st p).queriesMore ⊆
      mdictKeys st.queriesMore ++ [q] ∧
    ((mdictKeys st.queriesMore).Nodup →
      (mdictKeys (processPaper q st p).queriesMore).Nodup) := by
  unfold processPaper
  set st' := if st.papersDict.any (fun e => e.1 = p.paperId) then st
    else
      (p.citations.foldl (processCite q p.paperId)
        (p.references.foldl (processRef q p.paperId)
          (p.authors.foldl insAuthor
            { st with
              papersDict := st.papersDict ++ [(p.paperId, p)],
              paperData := dictInsert st.paperData p.paperId
                (recordOfPaper p) }))) with hst'
  have h' : mdictKeys st'.queriesMore ⊆ mdictKeys st.queriesMore ++ [q] ∧
      ((mdictKeys st.queriesMore).Nodup →
        (mdictKeys st'.queriesMore).Nodup) := by
    rw [hst']
    split
    · exact ⟨List.subset_append_left _ _, fun h => h⟩
    · have h1 := refsFold_more_keys q p.paperId p.references
        (p.authors.foldl insAuthor
          { st with
            papersDict := st.papersDict ++ [(p.paperId, p)],
            paperData := dictInsert st.paperData p.paperId
              (recordOfPaper p) })
      have h2 := citesFold_more_keys q p.paperId p.citations
        (p.references.foldl (processRef q p.paperId)
          (p.authors.foldl insAuthor
            { st with
              papersDict := st.papersDict ++ [(p.paperId, p)],
              paperData := dictInsert st.paperData p.paperId
                (recordOfPaper p) }))
      rw [foldl_insAuthor_more] at h1
      exact ⟨keys_subset_step h2.1 h1.1, fun h => h2.2 (h1.2 h)⟩
  refine ⟨keys_subset_step (mdictKeys_mdictAppend_subset _ _ _) h'.1, ?_⟩
  intro h
  exact mdictKeys_mdictAppend_nodup _ _ _ (h'.2 h)

theorem processRef_queriesData (q pid : String) (st : AggSt) (r : RefPaper) :
    (processRef q pid st r).queriesData = st.queriesData := by
  rw [processRef_eq]

theorem processCite_queriesData (q pid : String) (st : AggSt)
    (c : RefPaper) :
    (processCite q pid st c).queriesData = st.queriesData := by
  rw [processCite_eq]

theorem refsFold_queriesData (q pid : String) (refs : List RefPaper)
    (st : AggSt) :
    (refs.foldl (processRef q pid) st).queriesData = st.queriesData := by
  induction refs generalizing st with
  | nil => rfl
  | cons r t ih => rw [List.foldl_cons, ih, processRef_queriesData]

theorem citesFold_queriesData (q pid : String) (cites : List RefPaper)
    (st : AggSt) :
    (cites.foldl (processCite q pid) st).queriesData = st.queriesData := by
  induction cites generalizing st with
  | nil => rfl
  | cons c t ih => rw [List.foldl_cons, ih, processCite_queriesData]

theorem foldl_insAuthor_queriesData (l : List Author) (st : AggSt) :
    (l.foldl insAuthor st).queriesData = st.queriesData := by
  rw [foldl_insAuthor]

/-- The top-level membership index is only touched by the per-paper
append at the processed query's key. -/
theorem processPaper_queriesData (q : String) (st : AggSt) (p : RawPaper) :
    (processPaper q st p).queriesData =
      mdictAppend st.queriesData q p.paperId := by
  unfold processPaper
  split
  · rfl
  · rw [show (∀ st' : AggSt, ({ st' with
        queriesData := mdictAppend st'.queriesData q p.paperId,
        queriesMore := mdictAppend st'.queriesMore q p.paperId} :
          AggSt).queriesData = mdictAppend st'.queriesData q p.paperId)
      from fun st' => rfl]
    rw [citesFold_queriesData, refsFold_queriesData,
      foldl_insAuthor_queriesData]

theorem aggQuery_queriesData_keys (q : String) (papers : List RawPaper)
    (st : AggSt) :
    mdictKeys (aggQuery st q papers).queriesData ⊆
      mdictKeys st.queriesData ++ [q] ∧
    ((mdictKeys st.queriesData).Nodup →
      (mdictKeys (aggQuery st q papers).queriesData).Nodup) := by
  induction papers generalizing st with
  | nil => exact ⟨List.subset_append_left _ _, fun h => h⟩
  | cons p t ih =>
    rw [aggQuery_cons]
    have h2 := ih (processPaper q st p)
    rw [processPaper_queriesData] at h2
    exact ⟨keys_subset_step h2.1 (mdictKeys_mdictAppend_subset _ _ _),
      fun h => h2.2 (mdictKeys_mdictAppend_nodup _ _ _ h)⟩

theorem aggQuery_more_keys (q : String) (papers : List RawPaper)
    (st : AggSt) :
    mdictKeys (aggQuery st q papers).queriesMore ⊆
      mdictKeys st.queriesMore ++ [q] ∧
    ((mdictKeys st.queriesMore).Nodup →
      (mdictKeys (aggQuery st q papers).queriesMore).Nodup) := by
  induction papers generalizing st with
  | nil => exact ⟨List.subset_append_left _ _, fun h => h⟩
  | cons p t ih =>
    rw [aggQuery_cons]
    have h1 := processPaper_more_keys q st p
    have h2 := ih (processPaper q st p)
    exact ⟨keys_subset_step h2.1 h1.1, fun h => h2.2 (h1.2 h)⟩

theorem aggregate_queriesData_keys (qps : List (String × List RawPaper))
    (st : AggSt) :
    mdictKeys (aggregate qps st).queriesData ⊆
      mdictKeys st.queriesData ++ qps.map (fun e => e.1) ∧
    ((mdictKeys st.queriesData).Nodup →
      (mdictKeys (aggregate qps st).queriesData).Nodup) := by
  induction qps generalizing st with
  | nil => exact ⟨by simp [aggregate], fun h => h⟩
  | cons e t ih =>
    rw [aggregate_cons]
    have h1 := aggQuery_queriesData_keys e.1 e.2 st
    have h2 := ih (aggQuery st e.1 e.2)
    refine ⟨?_, fun h => h2.2 (h1.2 h)⟩
    intro a ha
    rcases List.mem_append.mp (h2.1 ha) with hm | hm
    · rcases List.mem_append.mp (h1.1 hm) with hm' | hm'
      · exact List.mem_append_left _ hm'
      · rw [List.mem_singleton] at hm'
        subst hm'
        exact List.mem_append_right _ (by simp)
    · exact List.mem_append_right _ (by simp [hm])

theorem aggregate_more_keys (qps : List (String × List RawPaper))
    (st : AggSt) :
    mdictKeys (aggregate qps st).queriesMore ⊆
      mdictKeys st.queriesMore ++ qps.map (fun e => e.1) ∧
    ((mdictKeys st.queriesMore).Nodup →
      (mdictKeys (aggregate qps st).queriesMore).Nodup) := by
  induction qps generalizing st with
  | nil => exact ⟨by simp [aggregate], fun h => h⟩
  | cons e t ih =>
    rw [aggregate_cons]
    have h1 := aggQuery_more_keys e.1 e.2 st
    have h2 := ih (aggQuery st e.1 e.2)
    refine ⟨?_, fun h => h2.2 (h1.2 h)⟩
    intro a ha
    rcases List.mem_append.mp (h2.1 ha) with hm | hm
    · rcases List.mem_append.mp (h1.1 hm) with hm' | hm'
      · exact List.mem_append_left _ hm'
      · rw [List.mem_singleton] at hm'
        subst hm'
        exact List.mem_append_right _ (by simp)
    · exact List.mem_append_right _ (by simp [hm])

/-- C10: each input query is stripped before it is fetched and before
it is used as the key of both membership indexes: runs on two queries
that strip equally are identical in every observable (document, trace,
cache), and a run on both together keeps all their memberships under
the single stripped key — the indexes' key lists are duplicate-free and
contained in `[pyStrip q1]`. -/
theorem c10_stripped_queries (apiKey : Option String)
    (cache : List CacheEntry) (now : Int) (net : String → Nat → Nat → Http)
    (q1 q2 : String) (total : Nat) (title : String)
    (h : pyStrip q1 = pyStrip q2) :
    generate_json apiKey cache now net [q1] total title =
      generate_json apiKey cache now net [q2] total title ∧
    ∀ d, (generate_json apiKey cache now net [q1, q2] total title).doc =
        some d →
      (mdictKeys d.queries).Nodup ∧ mdictKeys d.queries ⊆ [pyStrip q1] ∧
      (mdictKeys d.queriesMore).Nodup ∧
      mdictKeys d.queriesMore ⊆ [pyStrip q1] := by
  have hfa : fetchAll now net [q1] total title cache =
      fetchAll now net [q2] total title cache := by
    simp only [fetchAll, fetchAllGo, List.length_cons, List.length_nil]
    rw [h]
  constructor
  · simp only [generate_json, hfa]
  · intro d hd
    by_cases hkm : keyMissing apiKey = true
    · simp [generate_json, hkm] at hd
    · have hres : (fetchAll now net [q1, q2] total title cache).results.map
          (fun e => e.1) = [pyStrip q1, pyStrip q1] := by
        simp [fetchAll, fetchAllGo, h]
      simp only [generate_json, hkm, Bool.false_eq_true, if_false,
        Option.some.injEq] at hd
      subst hd
      have hqd := aggregate_queriesData_keys
        (fetchAll now net [q1, q2] total title cache).results emptyAgg
      have hqm := aggregate_more_keys
        (fetchAll now net [q1, q2] total title cache).results emptyAgg
      rw [hres] at hqd hqm
      have hsub : ∀ a : String,
          a ∈ mdictKeys emptyAgg.queriesData ++
            [pyStrip q1, pyStrip q1] → a ∈ [pyStrip q1] := by
        intro a ha
        simp [emptyAgg, mdictKeys] at ha
        simp [ha]
      refine ⟨?_, ?_, ?_, ?_⟩
      · exact hqd.2 (by simp [emptyAgg, mdictKeys])
      · intro a ha
        exact hsub a (hqd.1 (by simpa [docOfState] using ha))
      · exact hqm.2 (by simp [emptyAgg, mdictKeys])
      · intro a ha
        exact hsub a (hqm.1 (by simpa [docOfState] using ha))

/-- Witness for `c10_stripped_queries`: `" x "` and `"x"` strip
equally; the two one-query runs coincide exactly. -/
theorem c10_stripped_queries_witness :
    pyStrip " x " = pyStrip "x" ∧
    generate_json (some "k") c2cacheW 0 netDead [" x "] 1 "t" =
      generate_json (some "k") c2cacheW 0 netDead ["x"] 1 "t" :=
  ⟨by decide,
   (c10_stripped_queries (some "k") c2cacheW 0 netDead " x " "x" 1 "t"
     (by decide)).1⟩
